import Mathlib

/-!
Verification of the research-agent pipeline: a shallow embedding of the
search deduplication/ranking policy, the two-mode summarizer, the planner,
the episodic knowledge-graph store, and the vector memory, together with
proofs of the specified properties.
-/

set_option maxHeartbeats 1000000

namespace ResearchAgent

/-! ## A stable insertion sort

Python `list.sort(key=...)` is a stable sort (ascending by key; with
`reverse=True`, descending by key, still stable).  We model it by a stable
insertion sort, extensionally equal to any stable sort with the same
comparison.  `sInsert lt x l` places `x` before the first element `y` of `l`
with `lt y x = false`; hence an element inserted earlier in `sSort` (which
processes the original list head-first) stays before later equal elements. -/

def sInsert (lt : α → α → Bool) (x : α) : List α → List α
  | [] => [x]
  | y :: ys => if lt y x then y :: sInsert lt x ys else x :: y :: ys

def sSort (lt : α → α → Bool) : List α → List α
  | [] => []
  | x :: xs => sInsert lt x (sSort lt xs)

theorem sInsert_perm (lt : α → α → Bool) (x : α) (l : List α) :
    (sInsert lt x l).Perm (x :: l) := by
  induction l with
  | nil => simp [sInsert]
  | cons y ys ih =>
    simp only [sInsert]
    split
    · exact ((ih.cons y).trans (List.Perm.swap x y ys))
    · exact List.Perm.refl _

theorem sSort_perm (lt : α → α → Bool) (l : List α) :
    (sSort lt l).Perm l := by
  induction l with
  | nil => simp [sSort]
  | cons x xs ih =>
    exact (sInsert_perm lt x (sSort lt xs)).trans (ih.cons x)

theorem sInsert_pairwise (lt : α → α → Bool)
    (hasym : ∀ a b, lt a b = true → lt b a = false)
    (htrans : ∀ a b c, lt b a = false → lt c b = false → lt c a = false)
    (x : α) (l : List α) (hl : l.Pairwise (fun a b => lt b a = false)) :
    (sInsert lt x l).Pairwise (fun a b => lt b a = false) := by
  induction l with
  | nil => simp [sInsert]
  | cons y ys ih =>
    rcases hl with _ | ⟨hy, hys⟩
    simp only [sInsert]
    split
    · rename_i hyx
      refine List.Pairwise.cons ?_ (ih hys)
      intro z hz
      rcases List.mem_cons.1 ((List.Perm.mem_iff (sInsert_perm lt x ys)).1 hz) with
        hzx | hzys
      · subst hzx; exact hasym y z hyx
      · exact hy z hzys
    · rename_i hyx
      simp only [Bool.not_eq_true] at hyx
      refine List.Pairwise.cons ?_ (List.Pairwise.cons hy hys)
      intro z hz
      rcases List.mem_cons.1 hz with hzy | hzys
      · subst hzy; exact hyx
      · exact htrans x y z hyx (hy z hzys)

theorem sSort_pairwise (lt : α → α → Bool)
    (hasym : ∀ a b, lt a b = true → lt b a = false)
    (htrans : ∀ a b c, lt b a = false → lt c b = false → lt c a = false)
    (l : List α) :
    (sSort lt l).Pairwise (fun a b => lt b a = false) := by
  induction l with
  | nil => simp [sSort]
  | cons x xs ih => exact sInsert_pairwise lt hasym htrans x _ ih

theorem sInsert_filter_pos (lt : α → α → Bool) (p : α → Bool) (x : α) (l : List α)
    (hx : p x = true) (hkey : ∀ y, lt y x = true → p y = false) :
    (sInsert lt x l).filter p = x :: l.filter p := by
  induction l with
  | nil => simp [sInsert, hx]
  | cons y ys ih =>
    simp only [sInsert]
    split
    · rename_i hyx
      rw [List.filter_cons, List.filter_cons, hkey y hyx, ih]
      simp
    · rw [List.filter_cons, hx]
      simp

theorem sInsert_filter_neg (lt : α → α → Bool) (p : α → Bool) (x : α) (l : List α)
    (hx : p x = false) :
    (sInsert lt x l).filter p = l.filter p := by
  induction l with
  | nil => simp [sInsert, hx]
  | cons y ys ih =>
    simp only [sInsert]
    split
    · rw [List.filter_cons, List.filter_cons, ih]
    · rw [List.filter_cons, hx]; simp

/-- Stability of the sort: for a predicate that is determined by the sort key
(any element strictly below a satisfying element does not satisfy it), the
sorted list restricted to the predicate is exactly the input restricted to
the predicate, in the original order. -/
theorem sSort_filter_eq (lt : α → α → Bool) (p : α → Bool)
    (hkey : ∀ x y, p x = true → lt y x = true → p y = false) (l : List α) :
    (sSort lt l).filter p = l.filter p := by
  induction l with
  | nil => simp [sSort]
  | cons x xs ih =>
    simp only [sSort]
    cases hx : p x with
    | true =>
      rw [sInsert_filter_pos lt p x _ hx (fun y hy => hkey x y hx hy), ih,
        List.filter_cons, hx]
      simp
    | false =>
      rw [sInsert_filter_neg lt p x _ hx, ih, List.filter_cons, hx]; simp

/-- The head of the stable sort is the unique strict maximum when one exists:
if `x` is in the list and every other element is strictly after `x` in the
sort order, then `x` ends up first. -/
theorem sSort_head_of_strict_min (lt : α → α → Bool)
    (hasym : ∀ a b, lt a b = true → lt b a = false)
    (htrans : ∀ a b c, lt b a = false → lt c b = false → lt c a = false)
    (l : List α) (x : α) (hx : x ∈ l)
    (hmin : ∀ y ∈ l, y = x ∨ lt x y = true) :
    (sSort lt l).head? = some x := by
  have hperm := sSort_perm lt l
  have hpw := sSort_pairwise lt hasym htrans l
  have hxs : x ∈ sSort lt l := (hperm.mem_iff).2 hx
  cases hsort : sSort lt l with
  | nil => rw [hsort] at hxs; cases hxs
  | cons h t =>
    rw [hsort] at hxs hpw hperm
    rcases hpw with _ | ⟨hh, _⟩
    have hhl : h ∈ l := hperm.mem_iff.1 (List.mem_cons_self h t)
    rcases hmin h hhl with hhx | hlt
    · simp [hhx]
    · rcases List.mem_cons.1 hxs with hxh | hxt
      · simp [hxh]
      · have := hh x hxt
        rw [hlt] at this
        cases this

/-! ## SearchAgent (src/agents/search.py)

A search result is a dictionary built by `_execute_search` / `search_news`;
fields read with `dict.get` are modelled as `Option`s (`none` = key absent).
`multi_source_search` concatenates the web results and (optionally) the news
results, deduplicates by URL with `if url and url not in seen_urls`, sorts
with `key=lambda x: (-1 if x.get("search_type") == "news" else 0,
x.get("rank", 999))` (a stable sort), and returns the first
`max_results * 2` entries. -/

structure SearchResult where
  rank : Option Nat
  title : Option String
  snippet : Option String
  url : Option String
  source : Option String
  date : Option String
  searchType : Option String
deriving DecidableEq, Repr, Inhabited

/-- The URL as read by `result.get("url", "")`. -/
def SearchResult.urlD (r : SearchResult) : String := r.url.getD ""

/-- The deduplication loop of `multi_source_search`: keep a result only when
its URL is non-empty and not seen before. -/
def dedupByUrlGo (seen : List String) : List SearchResult → List SearchResult
  | [] => []
  | r :: rest =>
    if r.urlD ≠ "" ∧ r.urlD ∉ seen then
      r :: dedupByUrlGo (r.urlD :: seen) rest
    else
      dedupByUrlGo seen rest

def dedupByUrl (l : List SearchResult) : List SearchResult := dedupByUrlGo [] l

/-- The first component of the sort key:
`-1 if x.get("search_type") == "news" else 0`. -/
def newsKey (r : SearchResult) : Int :=
  if r.searchType = some "news" then -1 else 0

/-- The second component of the sort key: `x.get("rank", 999)`. -/
def rankKey (r : SearchResult) : Nat := r.rank.getD 999

/-- Strict lexicographic comparison on the Python sort key tuple. -/
def searchLt (a b : SearchResult) : Bool :=
  decide (newsKey a < newsKey b ∨ (newsKey a = newsKey b ∧ rankKey a < rankKey b))

/-- The deduplicate / sort / truncate pipeline of `multi_source_search`,
as a function of the concatenated result list. -/
def multiSourceCombine (allResults : List SearchResult) (maxResults : Nat) :
    List SearchResult :=
  ((sSort searchLt (dedupByUrl allResults)).take (maxResults * 2))

/-- The whole of `multi_source_search`, with the two external source calls
replaced by their (arbitrary) return values. -/
def multiSourceSearch (webResults newsResults : List SearchResult)
    (includeNews : Bool) (maxResults : Nat) : List SearchResult :=
  multiSourceCombine
    (webResults ++ (if includeNews then newsResults else [])) maxResults

theorem searchLt_asymm (a b : SearchResult)
    (h : searchLt a b = true) : searchLt b a = false := by
  simp only [searchLt, decide_eq_true_eq, decide_eq_false_iff_not] at h ⊢
  omega

theorem searchLt_trans_neg (a b c : SearchResult)
    (h1 : searchLt b a = false) (h2 : searchLt c b = false) :
    searchLt c a = false := by
  simp only [searchLt, decide_eq_false_iff_not] at h1 h2 ⊢
  omega

/-- Every element kept by the deduplication loop has a non-empty URL not in
`seen`, and is the first element of the input with its URL. -/
theorem dedupByUrlGo_mem_spec (l : List SearchResult) :
    ∀ seen r, r ∈ dedupByUrlGo seen l →
      r.urlD ≠ "" ∧ r.urlD ∉ seen ∧
        l.find? (fun x => x.urlD = r.urlD) = some r := by
  induction l with
  | nil => intro seen r h; simp [dedupByUrlGo] at h
  | cons a rest ih =>
    intro seen r h
    simp only [dedupByUrlGo] at h
    split at h
    · rename_i ha
      rcases List.mem_cons.1 h with hra | hrest
      · subst hra
        refine ⟨ha.1, ha.2, ?_⟩
        rw [List.find?_cons_of_pos]
        simp
      · obtain ⟨hne, hnseen, hfind⟩ := ih _ r hrest
        have hnea : r.urlD ≠ a.urlD := by
          intro hcontra
          exact hnseen (by rw [hcontra]; exact List.mem_cons_self _ _)
        refine ⟨hne, fun hmem => hnseen (List.mem_cons_of_mem _ hmem), ?_⟩
        rw [List.find?_cons_of_neg, hfind]
        simp [hnea.symm]
    · rename_i ha
      obtain ⟨hne, hnseen, hfind⟩ := ih _ r h
      rw [Decidable.not_and_iff_or_not, not_not, not_not] at ha
      have hnea : a.urlD ≠ r.urlD := by
        rcases ha with hempty | hseen
        · intro hcontra; exact hne (hcontra ▸ hempty)
        · intro hcontra; exact hnseen (hcontra ▸ hseen)
      exact ⟨hne, hnseen, by rw [List.find?_cons_of_neg, hfind]; simp [hnea]⟩

/-- The URLs of the deduplicated list are pairwise distinct. -/
theorem dedupByUrlGo_nodup (l : List SearchResult) :
    ∀ seen, ((dedupByUrlGo seen l).map SearchResult.urlD).Nodup := by
  induction l with
  | nil => intro seen; simp [dedupByUrlGo]
  | cons a rest ih =>
    intro seen
    simp only [dedupByUrlGo]
    split
    · simp only [List.map_cons, List.nodup_cons]
      refine ⟨?_, ih _⟩
      intro hmem
      obtain ⟨r, hr, hru⟩ := List.mem_map.1 hmem
      obtain ⟨-, hnseen, -⟩ := dedupByUrlGo_mem_spec rest _ r hr
      exact hnseen (hru ▸ List.mem_cons_self _ _)
    · exact ih _

/-- The deduplicated list is a sublist of the input. -/
theorem dedupByUrlGo_sublist (l : List SearchResult) :
    ∀ seen, (dedupByUrlGo seen l).Sublist l := by
  induction l with
  | nil => intro seen; simp [dedupByUrlGo]
  | cons a rest ih =>
    intro seen
    simp only [dedupByUrlGo]
    split
    · exact (ih _).cons₂ a
    · exact (ih _).cons a

/-- Membership in the output of `multiSourceCombine` implies membership in the
deduplicated list. -/
theorem mem_of_mem_multiSourceCombine {r : SearchResult} {l : List SearchResult}
    {maxR : Nat} (h : r ∈ multiSourceCombine l maxR) : r ∈ dedupByUrl l := by
  have h1 : r ∈ sSort searchLt (dedupByUrl l) :=
    (List.take_sublist _ _).mem h
  exact (sSort_perm searchLt (dedupByUrl l)).mem_iff.1 h1

/-- C1: in the list returned by `multi_source_search` no two entries share a
non-empty URL, every returned entry has a non-empty URL, and each returned
entry is exactly the first entry of the concatenated input carrying its URL
(so the first occurrence, with its original rank, is the one kept).  This is
the amended form of the claim: entries with a missing or empty URL are
dropped from the output rather than retained. -/
theorem C1_multi_source_search_dedup (web news : List SearchResult)
    (incl : Bool) (maxR : Nat) :
    ((multiSourceSearch web news incl maxR).map SearchResult.urlD).Nodup ∧
      ∀ r ∈ multiSourceSearch web news incl maxR,
        r.urlD ≠ "" ∧
          (web ++ (if incl then news else [])).find?
            (fun x => x.urlD = r.urlD) = some r := by
  set all := web ++ (if incl then news else []) with hall
  constructor
  · have hded : ((dedupByUrl all).map SearchResult.urlD).Nodup :=
      dedupByUrlGo_nodup all []
    have hperm : ((sSort searchLt (dedupByUrl all)).map SearchResult.urlD).Perm
        ((dedupByUrl all).map SearchResult.urlD) :=
      (sSort_perm searchLt (dedupByUrl all)).map SearchResult.urlD
    have hsorted : ((sSort searchLt (dedupByUrl all)).map SearchResult.urlD).Nodup :=
      hperm.nodup_iff.2 hded
    have hsub : List.Sublist
        ((multiSourceSearch web news incl maxR).map SearchResult.urlD)
        ((sSort searchLt (dedupByUrl all)).map SearchResult.urlD) :=
      (List.take_sublist _ _).map SearchResult.urlD
    exact hsub.nodup hsorted
  · intro r hr
    obtain ⟨hne, -, hfind⟩ :=
      dedupByUrlGo_mem_spec all [] r (mem_of_mem_multiSourceCombine hr)
    exact ⟨hne, hfind⟩

/-- C1 (counterexample to the claim as stated): an entry whose URL is missing
is not retained in the output of `multi_source_search`; the code drops every
entry with a missing or empty URL. -/
theorem C1_counterexample :
    (⟨some 1, some "t", some "s", none, some "duckduckgo", none, none⟩ :
        SearchResult) ∉
      multiSourceSearch
        [⟨some 1, some "t", some "s", none, some "duckduckgo", none, none⟩]
        [] false 5 := by
  decide

/-- A sample web search result used to instantiate theorems. -/
def webSample : SearchResult :=
  ⟨some 1, some "a", some "s", some "http://x", some "duckduckgo", none, none⟩

/-- A sample news search result with the same URL as `webSample`. -/
def newsSample : SearchResult :=
  ⟨some 1, some "b", some "s", some "http://x", some "news", some "d",
    some "news"⟩

/-- C1 (witness): the amended theorem applied at a concrete input: a web
result and a news result sharing a URL; only the first occurrence survives. -/
theorem C1_witness :
    (((multiSourceSearch [webSample] [newsSample] true 5).map
        SearchResult.urlD).Nodup ∧
      ∀ r ∈ multiSourceSearch [webSample] [newsSample] true 5,
        r.urlD ≠ "" ∧
          ([webSample] ++ (if true then [newsSample] else [])).find?
            (fun x => x.urlD = r.urlD) = some r) :=
  C1_multi_source_search_dedup [webSample] [newsSample] true 5

/-- Whether a result is tagged as a news result. -/
def isNews (r : SearchResult) : Bool := decide (r.searchType = some "news")

theorem newsKey_eq_iff (a b : SearchResult) :
    newsKey a = newsKey b ↔ isNews a = isNews b := by
  simp only [newsKey, isNews]
  by_cases ha : a.searchType = some "news" <;>
    by_cases hb : b.searchType = some "news" <;>
      simp [ha, hb]

/-- C4: the list returned by `multi_source_search` puts every news-tagged
entry before every non-news entry; within a group ranks are ascending; and
for each group and rank value, the returned entries with that group and rank
are a sublist (hence in the same relative order) of the concatenated input —
the sort is stable. -/
theorem C4_multi_source_search_ordering (web news : List SearchResult)
    (incl : Bool) (maxR : Nat) :
    ((multiSourceSearch web news incl maxR).Pairwise
        (fun a b => isNews b = true → isNews a = true)) ∧
      ((multiSourceSearch web news incl maxR).Pairwise
        (fun a b => isNews a = isNews b →
          ∀ ra rb, a.rank = some ra → b.rank = some rb → ra ≤ rb)) ∧
      ∀ (g : Bool) (k : Nat),
        List.Sublist
          ((multiSourceSearch web news incl maxR).filter
            (fun r => isNews r == g && rankKey r == k))
          ((web ++ (if incl then news else [])).filter
            (fun r => isNews r == g && rankKey r == k)) := by
  set all := web ++ (if incl then news else []) with hall
  have hpw : (sSort searchLt (dedupByUrl all)).Pairwise
      (fun a b => searchLt b a = false) :=
    sSort_pairwise searchLt searchLt_asymm searchLt_trans_neg _
  have hpwOut : (multiSourceSearch web news incl maxR).Pairwise
      (fun a b => searchLt b a = false) :=
    List.Pairwise.sublist (List.take_sublist _ _) hpw
  refine ⟨?_, ?_, ?_⟩
  · refine hpwOut.imp ?_
    intro a b h hb
    simp only [searchLt, decide_eq_false_iff_not] at h
    have hb' : newsKey b = -1 := by simp [newsKey, isNews] at hb ⊢; simp [hb]
    have ha' : newsKey a = -1 ∨ newsKey a = 0 := by
      simp only [newsKey]; split <;> simp
    simp only [isNews, decide_eq_true_eq]
    rcases ha' with ha' | ha'
    · simp only [newsKey] at ha'
      by_contra hcon
      simp [hcon] at ha'
    · exfalso; omega
  · refine hpwOut.imp ?_
    intro a b h heq ra rb hra hrb
    simp only [searchLt, decide_eq_false_iff_not] at h
    have hk : newsKey b = newsKey a := ((newsKey_eq_iff b a).2 heq.symm)
    have : ¬ rankKey b < rankKey a := by
      intro hlt; exact h (Or.inr ⟨hk, hlt⟩)
    simp only [rankKey, hra, hrb, Option.getD_some] at this
    omega
  · intro g k
    have hkey : ∀ x y : SearchResult,
        (isNews x == g && rankKey x == k) = true →
        searchLt y x = true →
        (isNews y == g && rankKey y == k) = false := by
      intro x y hx hyx
      simp only [Bool.and_eq_true, beq_iff_eq] at hx
      simp only [searchLt, decide_eq_true_eq] at hyx
      simp only [Bool.and_eq_false_iff, beq_eq_false_iff_ne, ne_eq]
      rcases hyx with hlt | ⟨heqk, hrk⟩
      · left
        intro hyg
        have : newsKey y = newsKey x := by
          rw [newsKey_eq_iff, hyg, hx.1]
        omega
      · right
        omega
    have hfilter : (sSort searchLt (dedupByUrl all)).filter
        (fun r => isNews r == g && rankKey r == k) =
        (dedupByUrl all).filter (fun r => isNews r == g && rankKey r == k) :=
      sSort_filter_eq searchLt _ hkey _
    have h1 : List.Sublist
        ((multiSourceSearch web news incl maxR).filter
          (fun r => isNews r == g && rankKey r == k))
        ((sSort searchLt (dedupByUrl all)).filter
          (fun r => isNews r == g && rankKey r == k)) :=
      (List.take_sublist _ _).filter _
    rw [hfilter] at h1
    exact h1.trans ((dedupByUrlGo_sublist all []).filter _)

/-- C4 (witness): the ordering theorem applied at a concrete input in which
the news result arrives after the web results. -/
theorem C4_witness :
    (((multiSourceSearch [webSample] [newsSample] true 5).Pairwise
        (fun a b => isNews b = true → isNews a = true)) ∧
      ((multiSourceSearch [webSample] [newsSample] true 5).Pairwise
        (fun a b => isNews a = isNews b →
          ∀ ra rb, a.rank = some ra → b.rank = some rb → ra ≤ rb)) ∧
      ∀ (g : Bool) (k : Nat),
        List.Sublist
          ((multiSourceSearch [webSample] [newsSample] true 5).filter
            (fun r => isNews r == g && rankKey r == k))
          (([webSample] ++ (if true then [newsSample] else [])).filter
            (fun r => isNews r == g && rankKey r == k))) :=
  C4_multi_source_search_ordering [webSample] [newsSample] true 5

/-! ## SummarizerAgent (src/agents/summarizer.py)

`summarize` flattens the incoming list of result lists and synthesizes a
summary either heuristically (`_synthesize_information`) or through a
language-model call (`_synthesize_with_llm`).  The language model and the
JSON parser (`json.loads`) are external collaborators: the model response is
an `Option String` (`none` = the call raised) and the parser is an abstract
`String → Option LLMParsed` (`none` = parse error or a non-object result,
both of which raise inside the `try` block). -/

structure KeyFinding where
  point : String
  source : String
  url : String
deriving DecidableEq, Repr

structure SourceRef where
  title : String
  url : String
deriving DecidableEq, Repr

structure Summary where
  key_findings : List KeyFinding
  source_count : Nat
  sources : List SourceRef
  synthesis_method : String
  summary : Option String
  themes : Option (List String)
  credibility_notes : Option String
deriving DecidableEq, Repr

/-- The key finding built for one result in heuristic mode:
snippet truncated to 200 characters, title defaulting to "Unknown",
URL defaulting to the empty string. -/
def toKeyFinding (r : SearchResult) : KeyFinding :=
  ⟨(r.snippet.getD "").take 200, r.title.getD "Unknown", r.url.getD ""⟩

/-- The source entry built for one result with a non-empty URL. -/
def toSourceRef (r : SearchResult) : SourceRef :=
  ⟨r.title.getD "Unknown", r.urlD⟩

/-- Heuristic synthesis (`_synthesize_information`): flatten, take the first
10 results for findings, collect sources from those same results when the
URL is non-empty, cap sources at 15. -/
def synthesizeInformation (searchResults : List (List SearchResult)) :
    Summary :=
  let all := searchResults.flatten
  let first10 := all.take 10
  { key_findings := first10.map toKeyFinding
    source_count := all.length
    sources := ((first10.filter (fun r => r.urlD != "")).map toSourceRef).take 15
    synthesis_method := "heuristic_extraction"
    summary := none
    themes := none
    credibility_notes := none }

/-- The parsed shape expected from the language model (a JSON object whose
fields are read with `dict.get` defaults). -/
structure LLMParsed where
  key_findings : Option (List KeyFinding)
  summary : Option String
  themes : Option (List String)
  credibility_notes : Option String

/-- The fenced-code-block stripping applied to the raw model response before
parsing: if a fence labelled `json` is present take the text between it and
the next fence, else if any fence is present take the text between the first
two fences, else leave the response unchanged. -/
def extractJsonBlock (text : String) : String :=
  if (text.splitOn "```json").length ≥ 2 then
    (((text.splitOn "```json").getD 1 "").splitOn "```").getD 0 "" |>.trim
  else if (text.splitOn "```").length ≥ 2 then
    (((text.splitOn "```").getD 1 "").splitOn "```").getD 0 "" |>.trim
  else text

/-- Language-model synthesis (`_synthesize_with_llm`): empty input defers to
heuristic mode; a raised call or an unparsable response falls back to
heuristic mode; on success the summary is built from the parsed fields with
sources recomputed from the first 15 flattened results. -/
def synthesizeWithLLM (parse : String → Option LLMParsed)
    (response : Option String)
    (searchResults : List (List SearchResult)) : Summary :=
  let all := searchResults.flatten
  if all.isEmpty then synthesizeInformation searchResults
  else
    match response with
    | none => synthesizeInformation searchResults
    | some text =>
      match parse (extractJsonBlock text) with
      | none => synthesizeInformation searchResults
      | some llm =>
        { key_findings := llm.key_findings.getD []
          source_count := all.length
          sources := ((all.take 15).filter (fun r => r.urlD != "")).map
            toSourceRef
          synthesis_method := "llm"
          summary := some (llm.summary.getD "")
          themes := some (llm.themes.getD [])
          credibility_notes := some (llm.credibility_notes.getD "") }

/-- The mode dispatch of `summarize`: the language-model path is taken
exactly when a client is available. -/
def summarize (llmClientAvailable : Bool)
    (parse : String → Option LLMParsed) (response : Option String)
    (searchResults : List (List SearchResult)) : Summary :=
  if llmClientAvailable then synthesizeWithLLM parse response searchResults
  else synthesizeInformation searchResults

/-- C2: when the language-model call raises (`response = none`) or its
response does not parse as the expected JSON structure, `summarize` returns
exactly the heuristic summary: `synthesis_method` is
`"heuristic_extraction"` and the findings equal what heuristic mode alone
produces; the failure is never propagated (the function is total). -/
theorem C2_summarize_llm_fallback (parse : String → Option LLMParsed)
    (response : Option String) (rs : List (List SearchResult))
    (hfail : response = none ∨
      ∀ t, response = some t → parse (extractJsonBlock t) = none) :
    summarize true parse response rs = synthesizeInformation rs ∧
      (summarize true parse response rs).synthesis_method =
        "heuristic_extraction" ∧
      (summarize true parse response rs).key_findings =
        (synthesizeInformation rs).key_findings := by
  have hmain : summarize true parse response rs = synthesizeInformation rs := by
    rcases hfail with hnone | hparse
    · subst hnone
      simp [summarize, synthesizeWithLLM]
    · cases response with
      | none => simp [summarize, synthesizeWithLLM]
      | some t =>
        have ht := hparse t rfl
        simp [summarize, synthesizeWithLLM, ht]
  refine ⟨hmain, ?_, ?_⟩
  · rw [hmain]; rfl
  · rw [hmain]

/-- C2 (witness): a concrete unparsable response with a non-empty result
set falls back to the heuristic summary. -/
theorem C2_witness :
    summarize true (fun _ => none) (some "not json") [[webSample]] =
        synthesizeInformation [[webSample]] ∧
      (summarize true (fun _ => none) (some "not json")
        [[webSample]]).synthesis_method = "heuristic_extraction" ∧
      (summarize true (fun _ => none) (some "not json")
        [[webSample]]).key_findings =
        (synthesizeInformation [[webSample]]).key_findings :=
  C2_summarize_llm_fallback (fun _ => none) (some "not json") [[webSample]]
    (Or.inr (fun _ _ => rfl))

/-- C6: heuristic summarization produces exactly `min n 10` key findings
(where `n` is the flattened length), in flattened arrival order, each
finding being the snippet truncated to 200 characters, the title defaulting
to "Unknown" and the URL as given (empty when absent); the synthesis method
is `"heuristic_extraction"`. -/
theorem C6_heuristic_findings (rs : List (List SearchResult)) :
    (synthesizeInformation rs).key_findings =
        (rs.flatten.take 10).map (fun r =>
          ⟨(r.snippet.getD "").take 200, r.title.getD "Unknown",
            r.url.getD ""⟩) ∧
      (synthesizeInformation rs).key_findings.length = min rs.flatten.length 10 ∧
      (synthesizeInformation rs).synthesis_method = "heuristic_extraction" := by
  refine ⟨rfl, ?_, rfl⟩
  show ((rs.flatten.take 10).map toKeyFinding).length = min rs.flatten.length 10
  rw [List.length_map, List.length_take]
  omega

/-- The length of the heuristic source list is at most 10: sources are
collected only from the first 10 flattened results. -/
theorem heuristicSources_len_le (rs : List (List SearchResult)) :
    (((rs.flatten.take 10).filter (fun r => r.urlD != "")).map
      toSourceRef).length ≤ 10 := by
  calc (((rs.flatten.take 10).filter (fun r => r.urlD != "")).map
      toSourceRef).length
      = ((rs.flatten.take 10).filter (fun r => r.urlD != "")).length := by
        rw [List.length_map]
    _ ≤ (rs.flatten.take 10).length := List.length_filter_le _ _
    _ ≤ 10 := by simp [List.length_take]

/-- C5 (amended): the heuristic source list is exactly one `{title, url}`
entry for each of the first 10 flattened results that has a non-empty URL,
in order (duplicates retained); in particular its length never exceeds 10,
so the additional cap of 15 never binds. -/
theorem C5_heuristic_sources (rs : List (List SearchResult)) :
    (synthesizeInformation rs).sources =
        ((rs.flatten.take 10).filter (fun r => r.urlD != "")).map toSourceRef ∧
      (synthesizeInformation rs).sources.length ≤ 15 ∧
      ∀ s ∈ (synthesizeInformation rs).sources,
        ∃ r ∈ rs.flatten, r.urlD ≠ "" ∧ s = toSourceRef r := by
  have hlen := heuristicSources_len_le rs
  have hsrc : (synthesizeInformation rs).sources =
      ((rs.flatten.take 10).filter (fun r => r.urlD != "")).map toSourceRef := by
    simp only [synthesizeInformation]
    exact List.take_of_length_le (le_trans hlen (by norm_num))
  refine ⟨hsrc, ?_, ?_⟩
  · rw [hsrc]; exact le_trans hlen (by norm_num)
  · intro s hs
    rw [hsrc] at hs
    obtain ⟨r, hr, hsr⟩ := List.mem_map.1 hs
    have hrf := List.mem_filter.1 hr
    refine ⟨r, (List.take_sublist _ _).mem hrf.1, ?_, hsr.symm⟩
    simpa using hrf.2

/-- The spec wording of the source-collection step, as a definition: one
entry per distinct flattened result with a non-empty URL (first occurrence
kept), capped at 15. -/
def keepFirstGo (seen : List SearchResult) :
    List SearchResult → List SearchResult
  | [] => []
  | r :: rest =>
    if r ∈ seen then keepFirstGo seen rest
    else r :: keepFirstGo (r :: seen) rest

def keepFirst (l : List SearchResult) : List SearchResult := keepFirstGo [] l

/-- Modelled from the spec: `sources` as the claim describes it — up to 15
distinct results drawn from all flattened results with a non-empty URL. -/
def claimedSources (rs : List (List SearchResult)) : List SourceRef :=
  ((keepFirst (rs.flatten.filter (fun r => r.urlD != ""))).take 15).map
    toSourceRef

/-- An input with eleven distinct non-empty URLs, used to separate the
implemented source collection from the claimed one. -/
def elevenResults : List SearchResult :=
  (List.range 11).map (fun i =>
    ⟨some (i + 1), some ("t" ++ toString i), some "s",
      some ("http://u" ++ toString i), some "duckduckgo", none, none⟩)

/-- C5 (counterexample to the claim as stated): with eleven distinct
non-empty URLs the implementation keeps only the sources of the first 10
flattened results (10 entries), not one entry per distinct URL capped at 15
(11 entries). -/
theorem C5_counterexample :
    (synthesizeInformation [elevenResults]).sources ≠
        claimedSources [elevenResults] ∧
      (synthesizeInformation [elevenResults]).sources.length = 10 ∧
      (claimedSources [elevenResults]).length = 11 := by
  refine ⟨?_, ?_, ?_⟩ <;> decide

/-- C5 (witness): the amended source characterization at a concrete input. -/
theorem C5_witness :
    (synthesizeInformation [[webSample]]).sources =
        (([[webSample]].flatten.take 10).filter (fun r => r.urlD != "")).map
          toSourceRef ∧
      (synthesizeInformation [[webSample]]).sources.length ≤ 15 ∧
      ∀ s ∈ (synthesizeInformation [[webSample]]).sources,
        ∃ r ∈ [[webSample]].flatten, r.urlD ≠ "" ∧ s = toSourceRef r :=
  C5_heuristic_sources [[webSample]]

/-! ## PlannerAgent (src/agents/planner.py)

`plan` logs and returns `_decompose_query(query)`, a fixed list of five
subtasks; fields absent from a given subtask dictionary (the `query` of the
summarize and write subtasks, the `depends_on` of the search subtasks) are
modelled as `none`. -/

structure Subtask where
  id : Nat
  type : String
  description : String
  query : Option String
  priority : String
  depends_on : Option (List Nat)
deriving DecidableEq, Repr

/-- The heuristic decomposition `_decompose_query`, which is also the value
returned by `plan`. -/
def plan (query : String) : List Subtask :=
  [ { id := 1, type := "search",
      description := "Search for current information about: " ++ query,
      query := some query, priority := "high", depends_on := none },
    { id := 2, type := "search",
      description :=
        "Find recent trends and developments related to: " ++ query,
      query := some ("recent trends " ++ query), priority := "medium",
      depends_on := none },
    { id := 3, type := "search",
      description := "Gather expert opinions and analysis on: " ++ query,
      query := some ("expert analysis " ++ query), priority := "medium",
      depends_on := none },
    { id := 4, type := "summarize",
      description := "Synthesize all gathered information",
      query := none, priority := "high", depends_on := some [1, 2, 3] },
    { id := 5, type := "write",
      description := "Generate comprehensive research report",
      query := none, priority := "high", depends_on := some [4] } ]

/-- C3: for every query, `plan` returns exactly five subtasks with ids 1-5
in order — three search subtasks carrying the direct query, the
"recent trends" variant and the "expert analysis" variant, a summarize
subtask with prerequisites [1, 2, 3] and a write subtask with prerequisite
[4]; the result is a deterministic function of the query. -/
theorem C3_plan_shape (query : String) :
    (plan query).length = 5 ∧
      (plan query).map Subtask.id = [1, 2, 3, 4, 5] ∧
      (plan query).map Subtask.type =
        ["search", "search", "search", "summarize", "write"] ∧
      (plan query).map Subtask.query =
        [some query, some ("recent trends " ++ query),
          some ("expert analysis " ++ query), none, none] ∧
      (plan query).map Subtask.depends_on =
        [none, none, none, some [1, 2, 3], some [4]] ∧
      ∀ query2, query2 = query → plan query2 = plan query := by
  refine ⟨rfl, rfl, rfl, rfl, rfl, ?_⟩
  intro query2 h
  rw [h]

/-- C3 (witness): the plan shape at a concrete query. -/
theorem C3_witness :
    ((plan "AI").length = 5 ∧
      (plan "AI").map Subtask.id = [1, 2, 3, 4, 5] ∧
      (plan "AI").map Subtask.type =
        ["search", "search", "search", "summarize", "write"] ∧
      (plan "AI").map Subtask.query =
        [some "AI", some ("recent trends " ++ "AI"),
          some ("expert analysis " ++ "AI"), none, none] ∧
      (plan "AI").map Subtask.depends_on =
        [none, none, none, some [1, 2, 3], some [4]] ∧
      ∀ query2, query2 = "AI" → plan query2 = plan "AI") :=
  C3_plan_shape "AI"

/-! ## Decimal rendering of natural numbers

`start_session` builds its id with a Python f-string,
`f"session_{n}_{t}"`, where `n` and `t` are rendered in decimal.  We model
the decimal rendering directly and prove it injective and free of the
underscore separator, which is what the session-id uniqueness argument
needs. -/

/-- Decimal digit characters of a natural number, most significant first. -/
def natDigits (n : Nat) : List Char :=
  if _h : n < 10 then [Nat.digitChar n]
  else natDigits (n / 10) ++ [Nat.digitChar (n % 10)]
decreasing_by
  exact Nat.div_lt_self (by omega) (by omega)

/-- Decimal rendering of a natural number, as in Python `str(n)`. -/
def natRepr (n : Nat) : String := ⟨natDigits n⟩

/-- The numeric value of a digit character. -/
def digitVal (c : Char) : Nat := c.toNat - 48

/-- Reading a digit list back as a number. -/
def digitsVal (l : List Char) : Nat := l.foldl (fun a c => a * 10 + digitVal c) 0

theorem digitsVal_go (l : List Char) :
    ∀ a, l.foldl (fun a c => a * 10 + digitVal c) a =
      a * 10 ^ l.length + digitsVal l := by
  induction l with
  | nil => intro a; simp [digitsVal]
  | cons c rest ih =>
    intro a
    rw [digitsVal, List.foldl_cons, List.foldl_cons, ih, ih (0 * 10 + digitVal c)]
    simp only [List.length_cons, pow_succ]
    ring

theorem digitVal_digitChar (d : Nat) (h : d < 10) :
    digitVal (Nat.digitChar d) = d := by
  interval_cases d <;> rfl

theorem digitsVal_natDigits (n : Nat) : digitsVal (natDigits n) = n := by
  induction n using Nat.strong_induction_on with
  | _ n ih =>
    rw [natDigits]
    split
    · rename_i h
      simp [digitsVal, digitVal_digitChar n h]
    · rename_i h
      rw [digitsVal, List.foldl_append]
      have hdiv : n / 10 < n := Nat.div_lt_self (by omega) (by omega)
      have := ih (n / 10) hdiv
      rw [digitsVal] at this
      rw [this]
      simp [digitVal_digitChar (n % 10) (Nat.mod_lt n (by omega))]
      omega

theorem natDigits_injective {m n : Nat} (h : natDigits m = natDigits n) :
    m = n := by
  have := digitsVal_natDigits m
  rw [h, digitsVal_natDigits] at this
  omega

theorem digitChar_ne_underscore (d : Nat) (h : d < 10) :
    Nat.digitChar d ≠ '_' := by
  interval_cases d <;> decide

theorem underscore_not_mem_natDigits (n : Nat) : '_' ∉ natDigits n := by
  induction n using Nat.strong_induction_on with
  | _ n ih =>
    rw [natDigits]
    split
    · rename_i h
      simp [(digitChar_ne_underscore n h).symm]
    · rename_i h
      have hdiv : n / 10 < n := Nat.div_lt_self (by omega) (by omega)
      simp only [List.mem_append, List.mem_singleton]
      push_neg
      exact ⟨ih (n / 10) hdiv,
        (digitChar_ne_underscore (n % 10) (Nat.mod_lt n (by omega))).symm⟩

/-- Splitting a character list at a separator absent from both prefixes is
unambiguous. -/
theorem sep_split_unique {c : Char} :
    ∀ (l1 l2 r1 r2 : List Char), c ∉ l1 → c ∉ l2 →
      l1 ++ c :: r1 = l2 ++ c :: r2 → l1 = l2 ∧ r1 = r2 := by
  intro l1
  induction l1 with
  | nil =>
    intro l2 r1 r2 _ hl2 h
    cases l2 with
    | nil => simpa using h
    | cons b bs =>
      simp only [List.nil_append, List.cons_append, List.cons.injEq] at h
      exact absurd (h.1 ▸ List.mem_cons_self b bs) (h.1 ▸ hl2)
  | cons a as ih =>
    intro l2 r1 r2 hl1 hl2 h
    cases l2 with
    | nil =>
      simp only [List.cons_append, List.nil_append, List.cons.injEq] at h
      exact absurd (h.1 ▸ List.mem_cons_self a as) (fun hm => hl1 (h.1 ▸ hm))
    | cons b bs =>
      simp only [List.cons_append, List.cons.injEq] at h
      obtain ⟨hab, htail⟩ := h
      have hmem1 : c ∉ as := fun hm => hl1 (List.mem_cons_of_mem a hm)
      have hmem2 : c ∉ bs := fun hm => hl2 (List.mem_cons_of_mem b hm)
      obtain ⟨heq, hr⟩ := ih bs r1 r2 hmem1 hmem2 htail
      exact ⟨by rw [hab, heq], hr⟩

/-! ## KnowledgeGraph / EpisodicStore (src/storage/knowledge_graph.py)

The persisted document is `{metadata, sessions, agents, actions}`; we model
the parts the claims touch: the session list, the agents dictionary (a map
from name to stats) and the global action list.  Timestamps are opaque
strings except for the integer timestamp embedded in session ids. -/

/-- The session id f-string `"session_{n}_{t}"`. -/
def sessionIdStr (n t : Nat) : String :=
  "session_" ++ natRepr n ++ "_" ++ natRepr t

theorem sessionIdStr_inj {n t m u : Nat}
    (h : sessionIdStr n t = sessionIdStr m u) : n = m ∧ t = u := by
  have hdata : "session_".data ++ (natDigits n ++ '_' :: natDigits t) =
      "session_".data ++ (natDigits m ++ '_' :: natDigits u) := by
    have h2 := congrArg String.data h
    simpa [sessionIdStr, natRepr, String.data] using h2
  have h3 := List.append_cancel_left hdata
  obtain ⟨hl, hr⟩ := sep_split_unique (natDigits n) (natDigits m)
    (natDigits t) (natDigits u) (underscore_not_mem_natDigits n)
    (underscore_not_mem_natDigits m) h3
  exact ⟨natDigits_injective hl, natDigits_injective hr⟩

structure ActionEntry (δ : Type) where
  agent : String
  action : String
  timestamp : String
  session_id : Option String
  data : δ

structure Session (δ : Type) where
  id : String
  query : String
  started : String
  status : String
  actions : List (ActionEntry δ)
  ended : Option String

/-- Per-agent statistics.  The code creates the entry with
`{"first_seen": timestamp, "action_count": 0}` and in the same call always
increments the count and sets `last_seen`, so after any completed
`log_agent_action` call the entry has all three fields. -/
structure AgentStats where
  first_seen : String
  action_count : Nat
  last_seen : String
deriving DecidableEq, Repr

structure KGState (δ : Type) where
  sessions : List (Session δ)
  agents : String → Option AgentStats
  actions : List (ActionEntry δ)
  current_session_id : Option String

/-- The freshly constructed in-memory graph (before `_load`). -/
def KGState.initial (δ : Type) : KGState δ :=
  { sessions := [], agents := fun _ => none, actions := [],
    current_session_id := none }

/-- The body of `start_session`: build the id from the current session count
and the integer timestamp, append the new session, make it current. -/
def startSession (s : KGState δ) (query : String) (nowTs : Nat)
    (nowIso : String) : KGState δ × String :=
  let session_id := sessionIdStr (s.sessions.length + 1) nowTs
  ({ sessions := s.sessions ++
      [{ id := session_id, query := query, started := nowIso,
         status := "active", actions := [], ended := none }],
     agents := s.agents, actions := s.actions,
     current_session_id := some session_id }, session_id)

/-- The loop in `log_agent_action` that appends the entry to the first
session whose id is the current one. -/
def appendToSession (sid : String) (entry : ActionEntry δ) :
    List (Session δ) → List (Session δ)
  | [] => []
  | sess :: rest =>
    if sess.id = sid then
      { sess with actions := sess.actions ++ [entry] } :: rest
    else sess :: appendToSession sid entry rest

/-- The loop in `end_session` that sets the end time and status of the first
session with the given id. -/
def endFirstSession (sid : String) (status nowIso : String) :
    List (Session δ) → List (Session δ)
  | [] => []
  | sess :: rest =>
    if sess.id = sid then
      { sess with ended := some nowIso, status := status } :: rest
    else sess :: endFirstSession sid status nowIso rest

/-- `log_agent_action`: append the entry to the global action list and to
the current session (when one is set and found), then create or update the
per-agent stats (first-seen only on creation, count incremented, last-seen
always set). -/
def logAgentAction (s : KGState δ) (agent action : String) (data : δ)
    (timestamp : String) : KGState δ :=
  let entry : ActionEntry δ :=
    { agent := agent, action := action, timestamp := timestamp,
      session_id := s.current_session_id, data := data }
  let sessions' := match s.current_session_id with
    | none => s.sessions
    | some sid => appendToSession sid entry s.sessions
  let stats' : AgentStats := match s.agents agent with
    | none => { first_seen := timestamp, action_count := 0 + 1,
                last_seen := timestamp }
    | some st => { first_seen := st.first_seen,
                   action_count := st.action_count + 1,
                   last_seen := timestamp }
  { sessions := sessions',
    agents := fun name => if name = agent then some stats' else s.agents name,
    actions := s.actions ++ [entry],
    current_session_id := s.current_session_id }

/-- `end_session`. -/
def endSession (s : KGState δ) (sid status nowIso : String) : KGState δ :=
  { s with sessions := endFirstSession sid status nowIso s.sessions }

/-- C7: `log_agent_action` increments the named agent's action count by
exactly one (missing entries count as zero), always sets `last_seen` to the
given timestamp, sets `first_seen` to the timestamp only when the agent was
absent, and preserves `first_seen` when the agent was already present. -/
theorem C7_log_agent_action_stats (s : KGState δ) (agent action : String)
    (data : δ) (timestamp : String) :
    ((logAgentAction s agent action data timestamp).agents agent).map
        AgentStats.action_count =
      some (((s.agents agent).map AgentStats.action_count).getD 0 + 1) ∧
      ((logAgentAction s agent action data timestamp).agents agent).map
        AgentStats.last_seen = some timestamp ∧
      (s.agents agent = none →
        ((logAgentAction s agent action data timestamp).agents agent).map
          AgentStats.first_seen = some timestamp) ∧
      (∀ st, s.agents agent = some st →
        ((logAgentAction s agent action data timestamp).agents agent).map
          AgentStats.first_seen = some st.first_seen) := by
  cases hst : s.agents agent with
  | none =>
    refine ⟨?_, ?_, fun _ => ?_, fun st hsome => ?_⟩ <;>
      simp [logAgentAction, hst] at *
  | some st =>
    refine ⟨?_, ?_, fun hnone => ?_, fun st2 hsome => ?_⟩ <;>
      simp [logAgentAction, hst] at *
    simp [hsome]

/-- A knowledge-graph state after one logged action, used as a concrete
instantiation point. -/
def kgOne : KGState Nat :=
  logAgentAction (KGState.initial Nat) "SearchAgent" "a" 0 "t1"

/-- C7 (witness): logging a second action for the same agent bumps the
count, updates `last_seen` and keeps `first_seen`. -/
theorem C7_witness :
    ((logAgentAction kgOne "SearchAgent" "b" 0 "t2").agents
        "SearchAgent").map AgentStats.action_count =
      some (((kgOne.agents "SearchAgent").map AgentStats.action_count).getD
        0 + 1) ∧
      ((logAgentAction kgOne "SearchAgent" "b" 0 "t2").agents
        "SearchAgent").map AgentStats.last_seen = some "t2" ∧
      (kgOne.agents "SearchAgent" = none →
        ((logAgentAction kgOne "SearchAgent" "b" 0 "t2").agents
          "SearchAgent").map AgentStats.first_seen = some "t2") ∧
      (∀ st, kgOne.agents "SearchAgent" = some st →
        ((logAgentAction kgOne "SearchAgent" "b" 0 "t2").agents
          "SearchAgent").map AgentStats.first_seen = some st.first_seen) :=
  C7_log_agent_action_stats kgOne "SearchAgent" "b" 0 "t2"

/-- The mutating operations of the knowledge graph within one process
lifetime (after construction / `_load`). -/
inductive KGOp (δ : Type) where
  | start (query : String) (nowTs : Nat) (nowIso : String)
  | logA (agent action : String) (data : δ) (timestamp : String)
  | endS (sid status nowIso : String)

def kgStep (s : KGState δ) : KGOp δ → KGState δ
  | .start q ts iso => (startSession s q ts iso).1
  | .logA a act d t => logAgentAction s a act d t
  | .endS sid st iso => endSession s sid st iso

/-- The session ids returned by the `start_session` calls of an operation
sequence, in call order. -/
def kgSessionIds (s : KGState δ) : List (KGOp δ) → List String
  | [] => []
  | KGOp.start q ts iso :: rest =>
    (startSession s q ts iso).2 ::
      kgSessionIds (kgStep s (KGOp.start q ts iso)) rest
  | op :: rest => kgSessionIds (kgStep s op) rest

theorem appendToSession_length (sid : String) (entry : ActionEntry δ) :
    ∀ l : List (Session δ), (appendToSession sid entry l).length = l.length := by
  intro l
  induction l with
  | nil => rfl
  | cons sess rest ih =>
    simp only [appendToSession]
    split <;> simp [ih]

theorem endFirstSession_length (sid status nowIso : String) :
    ∀ l : List (Session δ),
      (endFirstSession sid status nowIso l).length = l.length := by
  intro l
  induction l with
  | nil => rfl
  | cons sess rest ih =>
    simp only [endFirstSession]
    split <;> simp [ih]

/-- Only `start_session` changes the number of sessions; it adds exactly
one. -/
theorem kgStep_sessions_length (s : KGState δ) (op : KGOp δ) :
    (kgStep s op).sessions.length = s.sessions.length ∨
      (kgStep s op).sessions.length = s.sessions.length + 1 := by
  cases op with
  | start q ts iso => right; simp [kgStep, startSession]
  | logA a act d t =>
    left
    simp only [kgStep, logAgentAction]
    cases s.current_session_id with
    | none => rfl
    | some sid => simp [appendToSession_length]
  | endS sid st iso => left; simp [kgStep, endSession, endFirstSession_length]

/-- Every id emitted after state `s` embeds a sequence number strictly
larger than the session count of `s`, and the emitted ids are pairwise
distinct. -/
theorem kgSessionIds_spec (ops : List (KGOp δ)) :
    ∀ s : KGState δ,
      (∀ id ∈ kgSessionIds s ops,
        ∃ n t, id = sessionIdStr n t ∧ s.sessions.length < n) ∧
        (kgSessionIds s ops).Nodup := by
  induction ops with
  | nil => intro s; simp [kgSessionIds]
  | cons op rest ih =>
    intro s
    have hstep := kgStep_sessions_length s op
    obtain ⟨hall, hnd⟩ := ih (kgStep s op)
    cases op with
    | start q ts iso =>
      have hlen : (kgStep s (KGOp.start q ts iso)).sessions.length =
          s.sessions.length + 1 := by simp [kgStep, startSession]
      rw [hlen] at hall
      constructor
      · intro id hid
        simp only [kgSessionIds] at hid
        rcases List.mem_cons.1 hid with hhd | htl
        · exact ⟨s.sessions.length + 1, ts, hhd, Nat.lt_succ_self _⟩
        · obtain ⟨n, t, hid2, hlt⟩ := hall id htl
          exact ⟨n, t, hid2, by omega⟩
      · simp only [kgSessionIds, List.nodup_cons]
        refine ⟨?_, hnd⟩
        intro hmem
        obtain ⟨n, t, hid2, hlt⟩ := hall _ hmem
        obtain ⟨hn, -⟩ := sessionIdStr_inj hid2
        omega
    | logA a act d t =>
      rcases hstep with hlen | hlen
      · rw [hlen] at hall
        exact ⟨fun id hid => hall id hid, hnd⟩
      · rw [hlen] at hall
        refine ⟨fun id hid => ?_, hnd⟩
        obtain ⟨n, u, hid2, hlt⟩ := hall id hid
        exact ⟨n, u, hid2, by omega⟩
    | endS sid st iso =>
      rcases hstep with hlen | hlen
      · rw [hlen] at hall
        exact ⟨fun id hid => hall id hid, hnd⟩
      · rw [hlen] at hall
        refine ⟨fun id hid => ?_, hnd⟩
        obtain ⟨n, u, hid2, hlt⟩ := hall id hid
        exact ⟨n, u, hid2, by omega⟩

/-- C9: within one process lifetime (any starting state and any sequence of
`start_session` / `log_agent_action` / `end_session` calls, with arbitrary
timestamps — in particular equal integer-timestamp seconds), the session
ids returned by the `start_session` calls are pairwise distinct, because
the 1-based sequence-number component strictly increases. -/
theorem C9_session_ids_unique (δ : Type) (s : KGState δ)
    (ops : List (KGOp δ)) : (kgSessionIds s ops).Nodup :=
  (kgSessionIds_spec ops s).2

/-! ## VectorMemory / SemanticStore (src/storage/memory.py)

Python float arithmetic is idealized as real arithmetic, as the spec's
"under the defined embedding/cosine formula" does; the definitions are
therefore noncomputable where `sqrt` and real division occur.  The builtin
`hash` on strings (fixed within one process) is a parameter. -/

/-- The dot product `np.dot` of two equal-length vectors. -/
def listDot (v w : List ℝ) : ℝ := (List.zipWith (· * ·) v w).sum

/-- The sum of squares of the entries. -/
def sumSq (v : List ℝ) : ℝ := (v.map (fun x => x * x)).sum

/-- The Euclidean norm `np.linalg.norm`. -/
noncomputable def l2norm (v : List ℝ) : ℝ := Real.sqrt (sumSq v)

/-- The `_cosine_similarity` method: 0.0 when either norm is zero. -/
noncomputable def cosineSimilarity (v w : List ℝ) : ℝ :=
  if l2norm v = 0 ∨ l2norm w = 0 then 0
  else listDot v w / (l2norm v * l2norm w)

/-- The pre-normalization embedding vector of `_simple_embedding`:
lower-case the text, fill the first `len(text[:128])` of 128 slots with the
code point divided by 256, then overwrite the hash-chosen slot with 1.0. -/
noncomputable def embeddingBase (hash : String → Nat) (text : String) :
    List ℝ :=
  let t := text.map Char.toLower
  let cs := t.data.take 128
  let base0 := (List.range 128).map (fun i =>
    match cs.get? i with
    | some c => (c.toNat : ℝ) / 256
    | none => 0)
  base0.set (hash t % 128) 1

/-- The `_simple_embedding` method: the base vector, L2-normalized when its
norm is positive. -/
noncomputable def simpleEmbedding (hash : String → Nat) (text : String) :
    List ℝ :=
  let base := embeddingBase hash text
  let norm := l2norm base
  if 0 < norm then base.map (fun x => x / norm) else base

structure MemRecord (α : Type) where
  text : String
  embedding_dim : Nat
  meta : α
deriving DecidableEq, Repr

instance {α : Type} [Inhabited α] : Inhabited (MemRecord α) :=
  ⟨⟨"", 0, default⟩⟩

/-- The in-memory state of the vector store: the parallel lists
`self.vectors` and `self.metadata`. -/
structure VMState (α : Type) where
  vectors : List (List ℝ)
  metadata : List (MemRecord α)

/-- The `store` method. -/
noncomputable def vmStore (hash : String → Nat) (s : VMState α)
    (text : String) (meta : α) : VMState α :=
  let vector := simpleEmbedding hash text
  { vectors := s.vectors ++ [vector]
    metadata := s.metadata ++ [⟨text, vector.length, meta⟩] }

/-- The comparison used by `similarities.sort(key=lambda x: x[1],
reverse=True)`: stable descending by score. -/
noncomputable def simLt (a b : Nat × ℝ) : Bool := decide (b.2 < a.2)

/-- The `search` method: empty store gives `[]`; otherwise embed the query,
score every stored vector, sort stably by descending score, take `top_k`
and attach each score to a copy of the corresponding metadata record. -/
noncomputable def vmSearch [Inhabited α] (hash : String → Nat)
    (s : VMState α) (query : String) (top_k : Nat) :
    List (MemRecord α × ℝ) :=
  if s.vectors.isEmpty then []
  else
    let query_vector := simpleEmbedding hash query
    let sims := s.vectors.enum.map
      (fun p => (p.1, cosineSimilarity query_vector p.2))
    let sorted := sSort simLt sims
    (sorted.take top_k).map (fun p => (s.metadata.getD p.1 default, p.2))

theorem sumSq_nonneg (v : List ℝ) : 0 ≤ sumSq v := by
  induction v with
  | nil => simp [sumSq]
  | cons a rest ih =>
    simp only [sumSq, List.map_cons, List.sum_cons]
    have := mul_self_nonneg a
    simp only [sumSq] at ih
    linarith

theorem elem_sq_le_sumSq {x : ℝ} {v : List ℝ} (h : x ∈ v) :
    x * x ≤ sumSq v := by
  induction v with
  | nil => cases h
  | cons a rest ih =>
    simp only [sumSq, List.map_cons, List.sum_cons]
    rcases List.mem_cons.1 h with hxa | hxr
    · subst hxa
      have := sumSq_nonneg rest
      simp only [sumSq] at this
      linarith
    · have := ih hxr
      have ha := mul_self_nonneg a
      simp only [sumSq] at this
      linarith

theorem sumSq_map_div (v : List ℝ) (c : ℝ) (hc : c ≠ 0) :
    sumSq (v.map (fun x => x / c)) = sumSq v / (c * c) := by
  induction v with
  | nil => simp [sumSq]
  | cons a rest ih =>
    simp only [sumSq, List.map_cons, List.sum_cons] at ih ⊢
    rw [ih]
    field_simp

theorem listDot_self (v : List ℝ) : listDot v v = sumSq v := by
  induction v with
  | nil => rfl
  | cons a rest ih =>
    simp only [listDot, sumSq, List.zipWith_cons_cons, List.map_cons,
      List.sum_cons] at ih ⊢
    rw [ih]

theorem embeddingBase_length (hash : String → Nat) (text : String) :
    (embeddingBase hash text).length = 128 := by
  simp [embeddingBase]

/-- The embedding always has exactly 128 components. -/
theorem simpleEmbedding_length (hash : String → Nat) (text : String) :
    (simpleEmbedding hash text).length = 128 := by
  simp only [simpleEmbedding]
  split <;> simp [embeddingBase_length]

theorem mem_set_of_lt {α : Type} (l : List α) (i : Nat) (a : α)
    (h : i < l.length) : a ∈ l.set i a := by
  induction l generalizing i with
  | nil => simp at h
  | cons b rest ih =>
    cases i with
    | zero => simp [List.set]
    | succ n =>
      simp only [List.set]
      exact List.mem_cons_of_mem _ (ih n (by simpa using h))

/-- The marker component: 1.0 is always an entry of the pre-normalization
vector. -/
theorem one_mem_embeddingBase (hash : String → Nat) (text : String) :
    (1 : ℝ) ∈ embeddingBase hash text := by
  apply mem_set_of_lt
  simp only [List.length_map, List.length_range]
  exact Nat.mod_lt _ (by omega)

/-- The pre-normalization norm is positive (the claim's reason: the
hash-marker component of 1.0). -/
theorem l2norm_embeddingBase_pos (hash : String → Nat) (text : String) :
    0 < l2norm (embeddingBase hash text) := by
  rw [l2norm, Real.sqrt_pos]
  have h1 := elem_sq_le_sumSq (one_mem_embeddingBase hash text)
  linarith

/-- The embedding is always the normalized branch and has unit square sum
and unit norm. -/
theorem simpleEmbedding_unit (hash : String → Nat) (text : String) :
    sumSq (simpleEmbedding hash text) = 1 ∧
      l2norm (simpleEmbedding hash text) = 1 := by
  have hpos := l2norm_embeddingBase_pos hash text
  have hS : 0 < sumSq (embeddingBase hash text) := by
    rw [l2norm, Real.sqrt_pos] at hpos
    exact hpos
  have hsq : sumSq (simpleEmbedding hash text) = 1 := by
    simp only [simpleEmbedding, if_pos hpos]
    rw [sumSq_map_div _ _ (ne_of_gt hpos), l2norm,
      Real.mul_self_sqrt (le_of_lt hS)]
    exact div_self (ne_of_gt hS)
  exact ⟨hsq, by rw [l2norm, hsq, Real.sqrt_one]⟩

/-- Cosine self-similarity of the embedding is exactly 1. -/
theorem cosineSimilarity_embedding_self (hash : String → Nat)
    (text : String) :
    cosineSimilarity (simpleEmbedding hash text)
      (simpleEmbedding hash text) = 1 := by
  obtain ⟨hsq, hn⟩ := simpleEmbedding_unit hash text
  rw [cosineSimilarity, if_neg (by rw [hn]; norm_num), listDot_self, hsq, hn]
  norm_num

theorem listDot_eq_sum (v : List ℝ) :
    ∀ (w : List ℝ) (N : Nat), min v.length w.length ≤ N →
      listDot v w = ∑ i in Finset.range N, v.getD i 0 * w.getD i 0 := by
  induction v with
  | nil =>
    intro w N _
    simp [listDot, List.getD]
  | cons a v' ih =>
    intro w N hN
    cases w with
    | nil => simp [listDot, List.getD]
    | cons b w' =>
      cases N with
      | zero =>
        simp only [List.length_cons, Nat.succ_min_succ] at hN
        omega
      | succ N' =>
        rw [Finset.sum_range_succ']
        have harg : ∀ i : Nat,
            (a :: v').getD (i + 1) 0 * (b :: w').getD (i + 1) 0 =
              v'.getD i 0 * w'.getD i 0 := fun i => rfl
        simp only [harg]
        have hmin : min v'.length w'.length ≤ N' := by
          simp only [List.length_cons, Nat.succ_min_succ] at hN
          omega
        rw [← ih w' N' hmin]
        simp only [listDot, List.zipWith_cons_cons, List.sum_cons,
          List.getD_cons_zero]
        rw [add_comm]

theorem sumSq_eq_sum (v : List ℝ) (N : Nat) (h : v.length ≤ N) :
    sumSq v = ∑ i in Finset.range N, v.getD i 0 * v.getD i 0 := by
  rw [← listDot_self]
  exact listDot_eq_sum v v N (by simpa using h)

/-- Cauchy-Schwarz for the list dot product against the list norms. -/
theorem listDot_le_norms (v w : List ℝ) :
    listDot v w ≤ Real.sqrt (sumSq v) * Real.sqrt (sumSq w) := by
  set N := max v.length w.length with hN
  have h1 : listDot v w = ∑ i in Finset.range N, v.getD i 0 * w.getD i 0 :=
    listDot_eq_sum v w N (le_trans (min_le_left _ _) (le_max_left _ _))
  have h2 := Real.sum_mul_le_sqrt_mul_sqrt (Finset.range N)
    (fun i => v.getD i 0) (fun i => w.getD i 0)
  have h3 : sumSq v = ∑ i in Finset.range N, v.getD i 0 ^ 2 := by
    rw [sumSq_eq_sum v N (le_max_left _ _)]
    refine Finset.sum_congr rfl (fun i _ => ?_)
    rw [pow_two]
  have h4 : sumSq w = ∑ i in Finset.range N, w.getD i 0 ^ 2 := by
    rw [sumSq_eq_sum w N (le_max_right _ _)]
    refine Finset.sum_congr rfl (fun i _ => ?_)
    rw [pow_two]
  rw [h1, h3, h4]
  exact h2

/-- The cosine similarity of the code never exceeds 1, for arbitrary stored
vectors. -/
theorem cosineSimilarity_le_one (v w : List ℝ) :
    cosineSimilarity v w ≤ 1 := by
  rw [cosineSimilarity]
  split
  · norm_num
  · rename_i hz
    push_neg at hz
    obtain ⟨h1, h2⟩ := hz
    have hn1 : 0 < l2norm v :=
      lt_of_le_of_ne (Real.sqrt_nonneg _) (Ne.symm h1)
    have hn2 : 0 < l2norm w :=
      lt_of_le_of_ne (Real.sqrt_nonneg _) (Ne.symm h2)
    rw [div_le_one (by positivity)]
    have := listDot_le_norms v w
    simpa [l2norm] using this

theorem simLt_asymm (a b : Nat × ℝ) (h : simLt a b = true) :
    simLt b a = false := by
  simp only [simLt, decide_eq_true_eq, decide_eq_false_iff_not] at h ⊢
  linarith

theorem simLt_trans_neg (a b c : Nat × ℝ) (h1 : simLt b a = false)
    (h2 : simLt c b = false) : simLt c a = false := by
  simp only [simLt, decide_eq_false_iff_not] at h1 h2 ⊢
  linarith

/-- The scored index list built by `search` over the stored vectors. -/
noncomputable def simsOf (qv : List ℝ) (vectors : List (List ℝ)) :
    List (Nat × ℝ) :=
  vectors.enum.map (fun p => (p.1, cosineSimilarity qv p.2))

theorem vmSearch_eq [Inhabited α] (hash : String → Nat) (s : VMState α)
    (query : String) (top_k : Nat) (hne : s.vectors.isEmpty = false) :
    vmSearch hash s query top_k =
      ((sSort simLt (simsOf (simpleEmbedding hash query) s.vectors)).take
        top_k).map (fun p => (s.metadata.getD p.1 default, p.2)) := by
  rw [vmSearch, if_neg (by rw [hne]; exact Bool.false_ne_true)]
  rfl

/-- After a `store`, the new record scores exactly 1 against its own text
and it is the strict best result when no previously stored vector reaches
similarity 1. -/
theorem sims_after_store_strict_min (hash : String → Nat)
    (vectors : List (List ℝ)) (text : String)
    (hsim : ∀ v ∈ vectors,
      cosineSimilarity (simpleEmbedding hash text) v ≠ 1) :
    ((vectors.length, (1 : ℝ)) ∈
        simsOf (simpleEmbedding hash text)
          (vectors ++ [simpleEmbedding hash text])) ∧
      ∀ y ∈ simsOf (simpleEmbedding hash text)
          (vectors ++ [simpleEmbedding hash text]),
        y = (vectors.length, (1 : ℝ)) ∨
          simLt (vectors.length, (1 : ℝ)) y = true := by
  constructor
  · have hget : (vectors ++ [simpleEmbedding hash text])[vectors.length]? =
        some (simpleEmbedding hash text) := List.getElem?_concat_length _ _
    have henum := List.mk_mem_enum_iff_getElem?.mpr hget
    refine List.mem_map.2 ⟨(vectors.length, simpleEmbedding hash text),
      henum, ?_⟩
    simp [cosineSimilarity_embedding_self]
  · intro y hy
    obtain ⟨p, hp, hpy⟩ := List.mem_map.1 hy
    have hget := List.mk_mem_enum_iff_getElem?.mp hp
    by_cases hlt : p.1 < vectors.length
    · right
      rw [List.getElem?_append_left hlt] at hget
      have hv : p.2 ∈ vectors := List.getElem?_mem hget
      have h1 := hsim p.2 hv
      have h2 := cosineSimilarity_le_one (simpleEmbedding hash text) p.2
      rw [← hpy]
      simp only [simLt, decide_eq_true_eq]
      exact lt_of_le_of_ne h2 h1
    · left
      push_neg at hlt
      rw [List.getElem?_append_right hlt] at hget
      have hidx : p.1 - vectors.length < 1 := by
        by_contra hge
        push_neg at hge
        rw [List.getElem?_eq_none_iff.mpr (by simpa using hge)] at hget
        cases hget
      have hp1 : p.1 = vectors.length := by omega
      rw [hp1] at hget
      simp only [Nat.sub_self, List.getElem?_cons_zero,
        Option.some.injEq] at hget
      rw [← hpy, hp1, ← hget]
      rw [cosineSimilarity_embedding_self]

/-- C8 (amended): immediately after `store(text, meta)`, `search(text)` with
a positive `top_k` returns the new record first with similarity score
exactly 1.0, provided no previously stored vector already has cosine
similarity exactly 1 with the embedding of `text` (in particular, provided
the same text was not stored before).  Without that proviso the stable
descending sort returns the earliest record of similarity 1 first. -/
theorem C8_store_then_search_first (hash : String → Nat) {α : Type}
    [Inhabited α] (s : VMState α) (text : String) (meta : α) (top_k : Nat)
    (htop : 1 ≤ top_k)
    (hlen : s.vectors.length = s.metadata.length)
    (hsim : ∀ v ∈ s.vectors,
      cosineSimilarity (simpleEmbedding hash text) v ≠ 1) :
    (vmSearch hash (vmStore hash s text meta) text top_k).head? =
      some (⟨text, 128, meta⟩, 1) := by
  obtain ⟨k, rfl⟩ : ∃ k, top_k = k + 1 := ⟨top_k - 1, by omega⟩
  have hvec : (vmStore hash s text meta).vectors =
      s.vectors ++ [simpleEmbedding hash text] := rfl
  have hmd : (vmStore hash s text meta).metadata =
      s.metadata ++ [⟨text, (simpleEmbedding hash text).length, meta⟩] := rfl
  have hne : (vmStore hash s text meta).vectors.isEmpty = false := by
    rw [hvec]; simp
  rw [vmSearch_eq hash _ text (k + 1) hne]
  obtain ⟨hmem, hmin⟩ := sims_after_store_strict_min hash s.vectors text hsim
  have hhead : (sSort simLt (simsOf (simpleEmbedding hash text)
      (vmStore hash s text meta).vectors)).head? =
      some (s.vectors.length, (1 : ℝ)) := by
    rw [hvec]
    exact sSort_head_of_strict_min simLt simLt_asymm simLt_trans_neg _ _
      hmem hmin
  cases hsort : sSort simLt (simsOf (simpleEmbedding hash text)
      (vmStore hash s text meta).vectors) with
  | nil => rw [hsort] at hhead; cases hhead
  | cons hd tl =>
    rw [hsort] at hhead
    simp only [List.head?_cons, Option.some.injEq] at hhead
    rw [List.take_succ_cons, List.map_cons, List.head?_cons, hhead]
    rw [hmd, hlen]
    have hgetD : (s.metadata ++
        [(⟨text, (simpleEmbedding hash text).length, meta⟩ : MemRecord α)]).getD
          s.metadata.length default =
        ⟨text, (simpleEmbedding hash text).length, meta⟩ := by
      simp [List.getD_eq_getElem?_getD, List.getElem?_concat_length]
    rw [hgetD, simpleEmbedding_length]

/-- The empty vector store. -/
def vmEmpty (α : Type) : VMState α := ⟨[], []⟩

/-- C8 (witness): the amended theorem instantiated on an empty store with a
fixed hash function. -/
theorem C8_witness :
    (vmSearch (fun _ => 0) (vmStore (fun _ => 0) (vmEmpty Nat) "a" 7) "a"
        5).head? = some (⟨"a", 128, 7⟩, 1) :=
  C8_store_then_search_first (fun _ => 0) (vmEmpty Nat) "a" 7 5
    (by omega) rfl (fun v hv => absurd hv (List.not_mem_nil v))

/-- C8 (counterexample to the claim as stated): store the same text twice
with different metadata; the search ranks the EARLIER record first (the
stable descending sort keeps the smaller index ahead among equal scores of
1.0), so the record just stored is not the one ranked first. -/
theorem C8_counterexample :
    (vmSearch (fun _ => 0)
        (vmStore (fun _ => 0) (vmStore (fun _ => 0) (vmEmpty Nat) "a" 1)
          "a" 2) "a" 5).head? = some (⟨"a", 128, 1⟩, 1) ∧
      (⟨"a", 128, 1⟩ : MemRecord Nat) ≠ ⟨"a", 128, 2⟩ := by
  constructor
  · have hc := cosineSimilarity_embedding_self (fun _ => 0) "a"
    have hne : (vmStore (fun _ => 0)
        (vmStore (fun _ => 0) (vmEmpty Nat) "a" 1) "a" 2).vectors.isEmpty =
        false := by
      simp [vmStore, vmEmpty]
    rw [vmSearch_eq _ _ _ _ hne]
    have hvec : (vmStore (fun _ => 0)
        (vmStore (fun _ => 0) (vmEmpty Nat) "a" 1) "a" 2).vectors =
        [simpleEmbedding (fun _ => 0) "a", simpleEmbedding (fun _ => 0) "a"] := by
      simp [vmStore, vmEmpty]
    have hmd : (vmStore (fun _ => 0)
        (vmStore (fun _ => 0) (vmEmpty Nat) "a" 1) "a" 2).metadata =
        [⟨"a", 128, 1⟩, ⟨"a", 128, 2⟩] := by
      simp [vmStore, vmEmpty, simpleEmbedding_length]
    rw [hvec, hmd]
    have hsims : simsOf (simpleEmbedding (fun _ => 0) "a")
        [simpleEmbedding (fun _ => 0) "a", simpleEmbedding (fun _ => 0) "a"] =
        [(0, (1 : ℝ)), (1, (1 : ℝ))] := by
      simp [simsOf, List.enum, List.enumFrom, hc]
    rw [hsims]
    have hsort : sSort simLt [(0, (1 : ℝ)), (1, (1 : ℝ))] =
        [(0, (1 : ℝ)), (1, (1 : ℝ))] := by
      simp [sSort, sInsert, simLt]
    rw [hsort]
    simp [List.getD_cons_zero]
  · intro h
    cases h

/-- The operations on a vector store within one process lifetime: `store`,
`search`, and a (successful) `_load` of a persisted document, which fully
replaces both in-memory lists. -/
inductive VMOp (α : Type) where
  | store (text : String) (m : α)
  | search (query : String) (top_k : Nat)
  | load (doc : List (List ℝ) × List (MemRecord α))

/-- The `search` method viewed as a state transition: it produces its result
list and performs no assignment to `self.vectors` or `self.metadata`. -/
noncomputable def vmSearchStep [Inhabited α] (hash : String → Nat)
    (s : VMState α) (query : String) (top_k : Nat) :
    VMState α × List (MemRecord α × ℝ) :=
  (s, vmSearch hash s query top_k)

/-- The successful branch of `_load`: replace both lists with the persisted
document content. -/
def vmLoad (doc : List (List ℝ) × List (MemRecord α)) : VMState α :=
  { vectors := doc.1, metadata := doc.2 }

noncomputable def vmStep [Inhabited α] (hash : String → Nat) (s : VMState α) :
    VMOp α → VMState α
  | VMOp.store t m => vmStore hash s t m
  | VMOp.search q k => (vmSearchStep hash s q k).1
  | VMOp.load doc => vmLoad doc

noncomputable def vmRun [Inhabited α] (hash : String → Nat) (s : VMState α) :
    List (VMOp α) → VMState α
  | [] => s
  | op :: rest => vmRun hash (vmStep hash s op) rest

/-- The documents loaded by the `load` operations of a sequence. -/
def loadDocs {α : Type} :
    List (VMOp α) → List (List (List ℝ) × List (MemRecord α))
  | [] => []
  | VMOp.load doc :: rest => doc :: loadDocs rest
  | _ :: rest => loadDocs rest

/-- C10: after any sequence of `store`, `search` and `load` operations
(each load loading a well-formed persisted document, i.e. parallel lists of
equal length, as `_save` always writes), the vectors list and the metadata
list have equal length; every vector produced by the embedding function has
exactly 128 components and unit L2 norm (the 1.0 hash marker makes the
pre-normalization norm positive, so the normalization branch is always
taken); and `search` never mutates the state. -/
theorem C10_store_invariants (hash : String → Nat) {α : Type} [Inhabited α]
    (s : VMState α) (ops : List (VMOp α))
    (h0 : s.vectors.length = s.metadata.length)
    (hdocs : ∀ d ∈ loadDocs ops, d.1.length = d.2.length) :
    ((vmRun hash s ops).vectors.length =
        (vmRun hash s ops).metadata.length) ∧
      (∀ text, (simpleEmbedding hash text).length = 128 ∧
        l2norm (simpleEmbedding hash text) = 1) ∧
      (∀ (s2 : VMState α) (q : String) (k : Nat),
        (vmSearchStep hash s2 q k).1 = s2) := by
  refine ⟨?_, fun text => ⟨simpleEmbedding_length hash text,
    (simpleEmbedding_unit hash text).2⟩, fun s2 q k => rfl⟩
  induction ops generalizing s with
  | nil => exact h0
  | cons op rest ih =>
    cases op with
    | store t m =>
      refine ih (vmStep hash s (VMOp.store t m)) ?_ ?_
      · simp [vmStep, vmStore, h0]
      · intro d hd
        exact hdocs d hd
    | search q k =>
      refine ih s h0 ?_
      intro d hd
      exact hdocs d hd
    | load doc =>
      refine ih (vmLoad doc) ?_ ?_
      · exact hdocs doc (by simp [loadDocs])
      · intro d hd
        exact hdocs d (by simp [loadDocs]; exact Or.inr hd)

/-- C10 (witness): the invariant theorem applied to a concrete run with one
store, one search and one load of a well-formed document. -/
theorem C10_witness :
    ((vmRun (fun _ => 0) (vmEmpty Nat)
        [VMOp.store "a" 0, VMOp.search "a" 5,
          VMOp.load ([[1]], [⟨"x", 1, 0⟩])]).vectors.length =
      (vmRun (fun _ => 0) (vmEmpty Nat)
        [VMOp.store "a" 0, VMOp.search "a" 5,
          VMOp.load ([[1]], [⟨"x", 1, 0⟩])]).metadata.length) ∧
      (∀ text, (simpleEmbedding (fun _ => 0) text).length = 128 ∧
        l2norm (simpleEmbedding (fun _ => 0) text) = 1) ∧
      (∀ (s2 : VMState Nat) (q : String) (k : Nat),
        (vmSearchStep (fun _ => 0) s2 q k).1 = s2) :=
  C10_store_invariants (fun _ => 0) (vmEmpty Nat)
    [VMOp.store "a" 0, VMOp.search "a" 5, VMOp.load ([[1]], [⟨"x", 1, 0⟩])]
    rfl (by intro d hd; simp [loadDocs] at hd; rw [hd]; rfl)

end ResearchAgent
